import Mathlib

/-!
Shallow embedding of the `findr` utility (src/findr/__main__.py).

Modelling conventions:
* Python strings are modelled as `List Char`.
* A file's content is the list of lines that `readlines` returns (each line
  keeps its trailing newline, except possibly the last); a content of `none`
  stands for a file whose `open`/`readlines` raises (unreadable or
  undecodable file).
* The file system is an inductive tree `FSEntry`; a directory with
  `none` children stands for one whose `listdir` raises.
* Exceptions are modelled with `Except Unit`; `with suppress(Exception)`
  becomes an explicit discard of the error.
* `os.path.join` is modelled for the plain relative names the traversal
  produces (`a`, `a/b`, ...): it inserts a single `/` separator.
-/

/-- The ANSI green marker `\033[92m` used to emphasize matches. -/
def GREEN : List Char := "\x1b[92m".toList

/-- The ANSI blue marker `\033[94m` used for the location tag. -/
def BLUE : List Char := "\x1b[94m".toList

/-- The ANSI reset marker `\033[0m`. -/
def RESET : List Char := "\x1b[0m".toList

/-- Maximum displayed length of a highlighted content fragment. -/
def HIGHLIGHT_MAX_LEN : Nat := 40

/-- First index at which `key` occurs in the remaining string, scanning from
the front; `some 0` when `key` is a prefix (an empty `key` matches at 0,
exactly as Python's `str.index`/`in`). -/
def strIndexAux (key : List Char) : List Char → Option Nat
  | [] => if key.isPrefixOf [] then some 0 else none
  | c :: t =>
    if key.isPrefixOf (c :: t) then some 0
    else (strIndexAux key t).map (· + 1)

/-- Index of the first occurrence of `key` in `s` (Python `s.index(key)`,
with `none` for the raised `ValueError`). -/
def strIndexOpt (s key : List Char) : Option Nat := strIndexAux key s

/-- Python's `key in s` substring test. -/
def strContains (s key : List Char) : Bool := (strIndexOpt s key).isSome

/-- Python's `s.find(key)`: first-occurrence index, or `-1` when absent. -/
def pyFind (s key : List Char) : Int :=
  match strIndexOpt s key with
  | some i => (i : Int)
  | none => -1

/-- The ASCII whitespace characters removed by Python's `str.strip()`. -/
def pyIsSpace (c : Char) : Bool :=
  c == ' ' || c == '\t' || c == '\n' || c == '\r' ||
    c == Char.ofNat 11 || c == Char.ofNat 12

/-- Python's `s.strip()`: remove leading and trailing whitespace. -/
def pyStrip (s : List Char) : List Char :=
  ((s.dropWhile pyIsSpace).reverse.dropWhile pyIsSpace).reverse

/-- Fuelled worker for `pyReplace`; the fuel is only an upper bound on the
number of characters still to be consumed, so that the recursion is
structural and kernel-reducible. -/
def pyReplaceFuel : Nat → List Char → List Char → List Char → List Char
  | _, s, [], rep => rep ++ s.flatMap fun c => c :: rep
  | 0, s, _ :: _, _ => s
  | fuel + 1, s, p :: ps, rep =>
    match s with
    | [] => []
    | c :: rest =>
      if (p :: ps).isPrefixOf (c :: rest) then
        rep ++ pyReplaceFuel fuel (List.drop (p :: ps).length (c :: rest)) (p :: ps) rep
      else
        c :: pyReplaceFuel fuel rest (p :: ps) rep

/-- Python's `s.replace(pat, rep)`: replace every occurrence, scanning left
to right and resuming after the end of each replaced occurrence
(non-overlapping). -/
def pyReplace (s pat rep : List Char) : List Char :=
  pyReplaceFuel s.length s pat rep

/-- Decimal digits of a natural number, as Python's `str`. -/
def natChars (n : Nat) : List Char := (Nat.repr n).toList

/-- Decimal rendering of an integer, as Python's `str`. -/
def intChars : Int → List Char
  | .ofNat n => natChars n
  | .negSucc n => '-' :: natChars (n + 1)

/-- The replacement text `f"{GREEN}{key}{RESET}"` built by `search_in_file`. -/
def keyText (key : List Char) : List Char := GREEN ++ key ++ RESET

/-- The variable `higlight` of `search_in_file` before windowing:
`line.strip().replace(key, key_text)`. -/
def higlightOf (line key : List Char) : List Char :=
  pyReplace (pyStrip line) key (keyText key)

/-- The variable `higlight` of `search_in_file` after the 20-character
lookback window: `higlight.index(key)` raises when the key is absent from
the highlighted string, otherwise a fragment starting beyond index 20 is
left-truncated to start 20 characters before the occurrence. -/
def truncatedHiglight (line key : List Char) : Except Unit (List Char) :=
  match strIndexOpt (higlightOf line key) key with
  | none => .error ()
  | some i =>
    .ok (if 20 < i then (higlightOf line key).drop (i - 20) else higlightOf line key)

/-- The highlighted fragment appended after the location tag:
`higlight[:HIGHLIGHT_MAX_LEN]`. -/
def fragmentOf (line key : List Char) : Except Unit (List Char) :=
  (truncatedHiglight line key).map fun h => h.take HIGHLIGHT_MAX_LEN

/-- The location tag of one buffer entry:
`f"{BLUE}Line {line_num + 1}, Column {line.find(key) + 1}:{RESET} "`. -/
def locationTag (lineNum : Nat) (line key : List Char) : List Char :=
  BLUE ++ "Line ".toList ++ natChars (lineNum + 1) ++ ", Column ".toList ++
    intChars (pyFind line key + 1) ++ [':'] ++ RESET ++ [' ']

/-- The final newline fix-up of `search_in_file`:
`if location_text[-1] != "\n": location_text += "\n"`. -/
def withNewline (t : List Char) : List Char :=
  if t.getLast? = some '\n' then t else t ++ ['\n']

/-- The `location_text` built by `search_in_file` for one matching line
(0-based `lineNum`), with the trailing newline appended when missing. -/
def processLine (lineNum : Nat) (line key : List Char) : Except Unit (List Char) :=
  (fragmentOf line key).map fun frag =>
    withNewline (locationTag lineNum line key ++ frag)

/-- The per-line loop of `search_in_file`: lines not containing the key are
skipped, each matching line contributes one `location_text`, and an
exception raised on any line propagates out. -/
def searchInFileAux (key : List Char) : Nat → List (List Char) → Except Unit (List (List Char))
  | _, [] => .ok []
  | n, line :: rest =>
    if strContains line key then
      match processLine n line key with
      | .error e => .error e
      | .ok entry =>
        match searchInFileAux key (n + 1) rest with
        | .error e => .error e
        | .ok es => .ok (entry :: es)
    else searchInFileAux key (n + 1) rest

/-- The content matcher `search_in_file`, applied to the lines `readlines`
would return: `return "".join(buffer), len(buffer) > 0`. -/
def search_in_file (lines : List (List Char)) (key : List Char) :
    Except Unit (List Char × Bool) :=
  match searchInFileAux key 0 lines with
  | .error e => .error e
  | .ok es => .ok (es.flatten, decide (0 < es.length))

/-- The name matcher `search_in_filename`: highlight the first occurrence of
`key` in `fname` (the whole path string it is handed), or report no match. -/
def search_in_filename (fname key : List Char) : List Char × Bool :=
  match strIndexOpt fname key with
  | none => ([], false)
  | some start_idx =>
    (fname.take start_idx ++ GREEN ++ (fname.drop start_idx).take key.length ++
      RESET ++ fname.drop (start_idx + key.length), true)

/-- Last segment of a path: `fname.split("/")[-1]`. -/
def baseName (s : List Char) : List Char :=
  (s.reverse.takeWhile (· != '/')).reverse

/-- The dotfile test of `rec_find`: `fname.split("/")[-1].startswith(".")`. -/
def isHidden (fname : List Char) : Bool :=
  match baseName fname with
  | c :: _ => c == '.'
  | [] => false

/-- The `os.path.join` used by the traversal on plain relative names. -/
def pathJoin (base name : List Char) : List Char := base ++ '/' :: name

/-- File-system entry as the traversal observes it.  `file` carries the
lines `readlines` would return (`none`: reading raises); `dir` carries the
entries `listdir` would return in order (`none`: `listdir` raises);
`other` is an entry that is neither a regular file nor a directory. -/
inductive FSEntry where
  | file (name : List Char) (content : Option (List (List Char)))
  | dir (name : List Char) (children : Option (List FSEntry))
  | other (name : List Char)

/-- Name of an entry, used by `listdir`/`os.path.join`. -/
def entryName : FSEntry → List Char
  | .file n _ => n
  | .dir n _ => n
  | .other n => n

/-- Observable outcome of a traversal: the files on which the matcher was
invoked (with the content handed to it), the reporter calls made (in
order), and whether an exception escaped the call. -/
structure TravResult where
  visited : List (List Char × Option (List (List Char)))
  reports : List (List Char × List Char)
  errored : Bool
deriving DecidableEq, Repr

/-- A pluggable `search_fun`: given the path, the readable content of the
file (if any) and the key, it returns `(buffer, found)` or raises. -/
abbrev Matcher :=
  List Char → Option (List (List Char)) → List Char → Except Unit (List Char × Bool)

/-- The reporter calls produced for a single visited file:
`buffer, found = search_fun(fname, key); if found: print_fun(fname, buffer)`
inside `with suppress(Exception)`. -/
def fileReports (m : Matcher) (fname : List Char)
    (content : Option (List (List Char))) (key : List Char) :
    List (List Char × List Char) :=
  match m fname content key with
  | .ok (b, true) => [(fname, b)]
  | _ => []

/-- The directory loop of `rec_find`: children are processed in order, the
outcomes are concatenated, and an exception raised while processing a child
aborts the loop at that child and propagates. -/
def travList (f : FSEntry → TravResult) : List FSEntry → TravResult
  | [] => ⟨[], [], false⟩
  | c :: rest =>
    let r := f c
    if r.errored then r
    else
      let r2 := travList f rest
      ⟨r.visited ++ r2.visited, r.reports ++ r2.reports, r2.errored⟩

/-- The body of `rec_find` with the depth budget as structural fuel: a call
with `max_depth = d` behaves as `recFindN` with fuel `d.toNat` because the
function returns at once when `max_depth <= 0` and recurses with
`max_depth - 1`. -/
def recFindN (m : Matcher) (key : List Char) (nd : Bool) :
    Nat → List Char → FSEntry → TravResult
  | 0, _, _ => ⟨[], [], false⟩
  | d + 1, fname, e =>
    if nd && isHidden fname then ⟨[], [], false⟩
    else
      match e with
      | .file _ content => ⟨[(fname, content)], fileReports m fname content key, false⟩
      | .dir _ none => ⟨[], [], true⟩
      | .dir _ (some cs) =>
        travList (fun c => recFindN m key nd d (pathJoin fname (entryName c)) c) cs
      | .other _ => ⟨[], [], false⟩

/-- One child step of the directory loop: recurse on
`os.path.join(fname, file)` with the decremented depth budget. -/
def childStep (m : Matcher) (key : List Char) (nd : Bool) (d : Nat)
    (base : List Char) (c : FSEntry) : TravResult :=
  recFindN m key nd d (pathJoin base (entryName c)) c

/-- The traversal `rec_find(fname, key, max_depth, search_fun, print_fun,
no_dotfiles)`; `e` is what the file system holds at `fname`. -/
def rec_find (m : Matcher) (fname : List Char) (e : FSEntry) (key : List Char)
    (max_depth : Int) (nd : Bool) : TravResult :=
  recFindN m key nd max_depth.toNat fname e

/-- The driver loop of `main`: one `rec_find` per top-level entry, each
wrapped in `with suppress(Exception)`, so an escaped exception never stops
the remaining top-level entries. -/
def main_loop (m : Matcher) (entries : List FSEntry) (key : List Char)
    (max_depth : Int) (nd : Bool) : TravResult :=
  match entries with
  | [] => ⟨[], [], false⟩
  | e :: rest =>
    let r := rec_find m (entryName e) e key max_depth nd
    let r2 := main_loop m rest key max_depth nd
    ⟨r.visited ++ r2.visited, r.reports ++ r2.reports, false⟩

/-- The `search_fun` used in `contents` mode: `readlines` raises on an
unreadable file, otherwise `search_in_file` runs on the lines. -/
def contents_matcher : Matcher := fun _fname content key =>
  match content with
  | none => .error ()
  | some lines => search_in_file lines key

/-- The `search_fun` used in `filenames` mode: `search_in_filename` never
touches the file content and never raises. -/
def filenames_matcher : Matcher := fun fname _content key =>
  .ok (search_in_filename fname key)

/-- The reporter call a single visit produces, as a partial function of the
visit: `some (fname, buffer)` exactly when the matcher returns without
raising and with `found = true`. -/
def reportOfVisit (m : Matcher) (key : List Char)
    (pc : List Char × Option (List (List Char))) : Option (List Char × List Char) :=
  match m pc.1 pc.2 key with
  | .ok (b, true) => some (pc.1, b)
  | _ => none

/-! Helper lemmas about the string primitives. -/

theorem isPrefixOf_exists : ∀ (key s : List Char), key.isPrefixOf s = true →
    ∃ u, s = key ++ u
  | [], s, _ => ⟨s, rfl⟩
  | _ :: _, [], h => by simp [List.isPrefixOf] at h
  | a :: as, b :: bs, h => by
    simp only [List.isPrefixOf, Bool.and_eq_true, beq_iff_eq] at h
    obtain ⟨rfl, h2⟩ := h
    obtain ⟨u, rfl⟩ := isPrefixOf_exists as bs h2
    exact ⟨u, rfl⟩

theorem isPrefixOf_self_append (l t : List Char) : l.isPrefixOf (l ++ t) = true := by
  induction l with
  | nil => simp [List.isPrefixOf]
  | cons a as ih => simp [List.isPrefixOf, ih]

theorem strIndexOpt_nil_eq (key : List Char) :
    strIndexOpt [] key = if key.isPrefixOf [] then some 0 else none := rfl

theorem strIndexOpt_cons_eq (c : Char) (t key : List Char) :
    strIndexOpt (c :: t) key
      = if key.isPrefixOf (c :: t) then some 0 else (strIndexOpt t key).map (· + 1) := rfl

theorem strIndexOpt_drop (key : List Char) : ∀ (s : List Char) (i : Nat),
    strIndexOpt s key = some i → List.drop i s = key ++ List.drop (i + key.length) s := by
  intro s
  induction s with
  | nil =>
    intro i h
    rw [strIndexOpt_nil_eq] at h
    by_cases hp : key.isPrefixOf ([] : List Char) = true
    · rw [if_pos hp] at h
      obtain ⟨u, hu⟩ := isPrefixOf_exists key [] hp
      cases key with
      | nil => cases h; simp
      | cons a as => simp at hu
    · rw [if_neg hp] at h; cases h
  | cons c t ih =>
    intro i h
    rw [strIndexOpt_cons_eq] at h
    by_cases hp : key.isPrefixOf (c :: t) = true
    · rw [if_pos hp] at h
      cases h
      obtain ⟨u, hu⟩ := isPrefixOf_exists key (c :: t) hp
      rw [hu]
      simp [List.drop_left]
    · rw [if_neg hp] at h
      cases hj : strIndexOpt t key with
      | none => rw [hj] at h; cases h
      | some j =>
        rw [hj] at h
        simp only [Option.map_some'] at h
        cases h
        have harith : j + 1 + key.length = (j + key.length) + 1 := by omega
        rw [harith]
        simp only [List.drop_succ_cons]
        exact ih j hj

theorem strIndexOpt_split (s key : List Char) (i : Nat)
    (h : strIndexOpt s key = some i) :
    s.take i ++ key ++ s.drop (i + key.length) = s := by
  have h2 := strIndexOpt_drop key s i h
  calc s.take i ++ key ++ s.drop (i + key.length)
      = s.take i ++ (key ++ s.drop (i + key.length)) := by rw [List.append_assoc]
    _ = s.take i ++ s.drop i := by rw [← h2]
    _ = s := List.take_append_drop i s

theorem strIndexOpt_occurrence (s key : List Char) (i : Nat)
    (h : strIndexOpt s key = some i) :
    (s.drop i).take key.length = key := by
  rw [strIndexOpt_drop key s i h]
  exact List.take_left key _

/-! Helper lemmas about `pyReplace`. -/

theorem pyReplaceFuel_irrel : ∀ (f g : Nat) (s pat rep : List Char),
    s.length ≤ f → s.length ≤ g →
    pyReplaceFuel f s pat rep = pyReplaceFuel g s pat rep := by
  intro f
  induction f with
  | zero =>
    intro g s pat rep hf _
    have hs : s = [] := List.length_eq_zero.mp (Nat.le_zero.mp hf)
    subst hs
    cases pat with
    | nil =>
      cases g with
      | zero => rfl
      | succ g' => rfl
    | cons p ps =>
      cases g with
      | zero => rfl
      | succ g' => rfl
  | succ f' ih =>
    intro g s pat rep hf hg
    cases pat with
    | nil =>
      cases g with
      | zero => rfl
      | succ g' => rfl
    | cons p ps =>
      cases s with
      | nil =>
        cases g with
        | zero => rfl
        | succ g' => rfl
      | cons c rest =>
        cases g with
        | zero => simp at hg
        | succ g' =>
          simp only [pyReplaceFuel]
          by_cases hp : (p :: ps).isPrefixOf (c :: rest) = true
          · rw [if_pos hp, if_pos hp]
            congr 1
            apply ih
            · simp only [List.length_drop, List.length_cons]
              simp only [List.length_cons] at hf
              omega
            · simp only [List.length_drop, List.length_cons]
              simp only [List.length_cons] at hg
              omega
          · rw [if_neg hp, if_neg hp]
            congr 1
            apply ih
            · simp only [List.length_cons] at hf
              omega
            · simp only [List.length_cons] at hg
              omega

theorem pyReplace_cons_eq (c : Char) (rest : List Char) (p : Char) (ps rep : List Char) :
    pyReplace (c :: rest) (p :: ps) rep
      = if (p :: ps).isPrefixOf (c :: rest) then
          rep ++ pyReplace (List.drop (p :: ps).length (c :: rest)) (p :: ps) rep
        else c :: pyReplace rest (p :: ps) rep := by
  show pyReplaceFuel (rest.length + 1) (c :: rest) (p :: ps) rep = _
  simp only [pyReplaceFuel]
  by_cases hp : (p :: ps).isPrefixOf (c :: rest) = true
  · rw [if_pos hp, if_pos hp]
    congr 1
    apply pyReplaceFuel_irrel
    · simp only [List.length_drop, List.length_cons]
      omega
    · exact Nat.le_refl _
  · rw [if_neg hp, if_neg hp]
    rfl

theorem pyReplace_nil_left (p : Char) (ps rep : List Char) :
    pyReplace [] (p :: ps) rep = [] := rfl

theorem strContains_cons_of_false (c : Char) (t key : List Char)
    (h : strContains (c :: t) key = false) :
    key.isPrefixOf (c :: t) = false ∧ strContains t key = false := by
  unfold strContains at h ⊢
  rw [strIndexOpt_cons_eq] at h
  by_cases hp : key.isPrefixOf (c :: t) = true
  · rw [if_pos hp] at h
    simp at h
  · rw [if_neg hp] at h
    refine ⟨Bool.eq_false_iff.mpr hp, ?_⟩
    cases hj : strIndexOpt t key with
    | none => rfl
    | some j => rw [hj] at h; simp at h

theorem pyReplace_of_not_contains : ∀ (s : List Char) (p : Char) (ps rep : List Char),
    strContains s (p :: ps) = false → pyReplace s (p :: ps) rep = s := by
  intro s
  induction s with
  | nil => intro p ps rep _; rfl
  | cons c t ih =>
    intro p ps rep h
    obtain ⟨hp, ht⟩ := strContains_cons_of_false c t (p :: ps) h
    rw [pyReplace_cons_eq, if_neg (Bool.eq_false_iff.mp hp), ih p ps rep ht]

theorem pyReplace_of_index : ∀ (s : List Char) (i : Nat) (p : Char) (ps rep : List Char),
    strIndexOpt s (p :: ps) = some i →
    pyReplace s (p :: ps) rep
      = s.take i ++ rep ++ pyReplace (s.drop (i + (p :: ps).length)) (p :: ps) rep := by
  intro s
  induction s with
  | nil =>
    intro i p ps rep h
    rw [strIndexOpt_nil_eq] at h
    simp [List.isPrefixOf] at h
  | cons c t ih =>
    intro i p ps rep h
    rw [strIndexOpt_cons_eq] at h
    by_cases hp : (p :: ps).isPrefixOf (c :: t) = true
    · rw [if_pos hp] at h
      cases h
      rw [pyReplace_cons_eq, if_pos hp]
      simp
    · rw [if_neg hp] at h
      cases hj : strIndexOpt t (p :: ps) with
      | none => rw [hj] at h; cases h
      | some j =>
        rw [hj] at h
        simp only [Option.map_some'] at h
        cases h
        rw [pyReplace_cons_eq, if_neg hp, ih j p ps rep hj]
        have harith : j + 1 + (p :: ps).length = (j + (p :: ps).length) + 1 := by omega
        rw [harith]
        simp only [List.drop_succ_cons, List.take_succ_cons, List.cons_append]

/-! Helper lemmas about the traversal and the per-line processing. -/

theorem recFindN_succ_eq (m : Matcher) (key : List Char) (nd : Bool) (d : Nat)
    (fname : List Char) (e : FSEntry) :
    recFindN m key nd (d + 1) fname e
      = if nd && isHidden fname then ⟨[], [], false⟩
        else
          match e with
          | .file _ content => ⟨[(fname, content)], fileReports m fname content key, false⟩
          | .dir _ none => ⟨[], [], true⟩
          | .dir _ (some cs) => travList (childStep m key nd d fname) cs
          | .other _ => ⟨[], [], false⟩ := by
  cases e with
  | file nm content => rfl
  | dir nm children => cases children with
    | none => rfl
    | some cs => rfl
  | other nm => rfl

theorem travList_cons (f : FSEntry → TravResult) (c : FSEntry) (rest : List FSEntry) :
    travList f (c :: rest)
      = if (f c).errored then f c
        else ⟨(f c).visited ++ (travList f rest).visited,
              (f c).reports ++ (travList f rest).reports,
              (travList f rest).errored⟩ := rfl

theorem recFindN_file_errored (m : Matcher) (key : List Char) (nd : Bool) (d : Nat)
    (fname nm : List Char) (content : Option (List (List Char))) :
    (recFindN m key nd d fname (.file nm content)).errored = false := by
  cases d with
  | zero => rfl
  | succ d' =>
    rw [recFindN_succ_eq]
    by_cases hh : (nd && isHidden fname) = true
    · rw [if_pos hh]
    · rw [if_neg hh]

theorem getLast?_withNewline (t : List Char) : (withNewline t).getLast? = some '\n' := by
  unfold withNewline
  by_cases h : t.getLast? = some '\n'
  · rw [if_pos h]; exact h
  · rw [if_neg h]; exact List.getLast?_concat _

theorem isPrefixOf_withNewline (l frag : List Char) :
    l.isPrefixOf (withNewline (l ++ frag)) = true := by
  unfold withNewline
  by_cases h : (l ++ frag).getLast? = some '\n'
  · rw [if_pos h]; exact isPrefixOf_self_append _ _
  · rw [if_neg h]
    rw [List.append_assoc]
    exact isPrefixOf_self_append _ _

theorem processLine_shape (n : Nat) (line key e : List Char)
    (h : processLine n line key = .ok e) :
    (locationTag n line key).isPrefixOf e = true ∧ e.getLast? = some '\n' := by
  unfold processLine at h
  cases hf : fragmentOf line key with
  | error err => rw [hf] at h; cases h
  | ok frag =>
    rw [hf] at h
    simp only [Except.map, Except.ok.injEq] at h
    subst h
    exact ⟨isPrefixOf_withNewline _ _, getLast?_withNewline _⟩

theorem searchInFileAux_entries (key : List Char) :
    ∀ (lines : List (List Char)) (n : Nat) (es : List (List Char)),
      searchInFileAux key n lines = .ok es →
      List.Forall₂
        (fun (p : Nat × List Char) (e : List Char) =>
          processLine p.1 p.2 key = .ok e ∧
          (locationTag p.1 p.2 key).isPrefixOf e = true ∧
          e.getLast? = some '\n')
        ((List.enumFrom n lines).filter fun p => strContains p.2 key) es := by
  intro lines
  induction lines with
  | nil =>
    intro n es h
    cases h
    exact List.Forall₂.nil
  | cons line rest ih =>
    intro n es h
    simp only [searchInFileAux] at h
    by_cases hc : strContains line key = true
    · rw [if_pos hc] at h
      cases hp : processLine n line key with
      | error err => rw [hp] at h; cases h
      | ok entry =>
        rw [hp] at h
        cases ha : searchInFileAux key (n + 1) rest with
        | error err => rw [ha] at h; cases h
        | ok es' =>
          rw [ha] at h
          cases h
          have hrest := ih (n + 1) es' ha
          have hshape := processLine_shape n line key entry hp
          show List.Forall₂ _
            (((n, line) :: List.enumFrom (n + 1) rest).filter fun p => strContains p.2 key) _
          rw [@List.filter_cons_of_pos _ (fun p => strContains p.2 key) (n, line)
            (List.enumFrom (n + 1) rest) hc]
          exact List.Forall₂.cons ⟨hp, hshape.1, hshape.2⟩ hrest
    · rw [if_neg hc] at h
      have hrest := ih (n + 1) es h
      show List.Forall₂ _
        (((n, line) :: List.enumFrom (n + 1) rest).filter fun p => strContains p.2 key) _
      rw [@List.filter_cons_of_neg _ (fun p => strContains p.2 key) (n, line)
        (List.enumFrom (n + 1) rest) hc]
      exact hrest

theorem travList_reports (f : FSEntry → TravResult)
    (g : List Char × Option (List (List Char)) → Option (List Char × List Char))
    (cs : List FSEntry)
    (hf : ∀ c ∈ cs, (f c).reports = (f c).visited.filterMap g) :
    (travList f cs).reports = (travList f cs).visited.filterMap g := by
  induction cs with
  | nil => rfl
  | cons c rest ih =>
    rw [travList_cons]
    by_cases he : (f c).errored = true
    · rw [if_pos he]
      exact hf c (List.mem_cons_self c rest)
    · rw [if_neg he]
      have h1 := hf c (List.mem_cons_self c rest)
      have h2 := ih fun x hx => hf x (List.mem_cons_of_mem c hx)
      simp only [List.filterMap_append]
      rw [h1, h2]

theorem recFindN_reports (m : Matcher) (key : List Char) (nd : Bool) :
    ∀ (d : Nat) (fname : List Char) (e : FSEntry),
      (recFindN m key nd d fname e).reports
        = (recFindN m key nd d fname e).visited.filterMap (reportOfVisit m key) := by
  intro d
  induction d with
  | zero => intro fname e; rfl
  | succ d ih =>
    intro fname e
    rw [recFindN_succ_eq]
    by_cases hh : (nd && isHidden fname) = true
    · rw [if_pos hh]; rfl
    · rw [if_neg hh]
      cases e with
      | file nm content =>
        show fileReports m fname content key
          = List.filterMap (reportOfVisit m key) [(fname, content)]
        unfold fileReports reportOfVisit
        cases hm : m fname content key with
        | error err => simp [List.filterMap, hm]
        | ok pr =>
          cases pr with
          | mk b fd =>
            cases fd with
            | true => simp [List.filterMap, hm]
            | false => simp [List.filterMap, hm]
      | dir nm children =>
        cases children with
        | none => rfl
        | some cs =>
          exact travList_reports _ _ cs fun c _ => ih (pathJoin fname (entryName c)) c
      | other nm => rfl

/-! Claim theorems. -/

/-- C4: for every path, key, matcher and reporter, calling `rec_find` with
`max_depth <= 0` returns immediately: no file is visited, no error escapes
and no reporter call is made; in particular `max_depth = 0` never produces
a reporter call. -/
theorem rec_find_depth_nonpos (m : Matcher) (fname : List Char) (e : FSEntry)
    (key : List Char) (max_depth : Int) (nd : Bool) (h : max_depth ≤ 0) :
    rec_find m fname e key max_depth nd = ⟨[], [], false⟩ := by
  unfold rec_find
  rw [Int.toNat_eq_zero.mpr h]
  rfl

/-- Witness for `rec_find_depth_nonpos` at depth 0 on a file whose content
contains the key. -/
theorem rec_find_depth_nonpos_witness :
    rec_find contents_matcher ("a.txt".toList)
        (.file ("a.txt".toList) (some [("k\n").toList])) ("k".toList) 0 false
      = ⟨[], [], false⟩ :=
  rec_find_depth_nonpos contents_matcher ("a.txt".toList)
    (.file ("a.txt".toList) (some [("k\n").toList])) ("k".toList) 0 false (by decide)

/-- C5: for every entry whose base name starts with a dot, when the
skip-hidden flag is true the traversal returns at once: the result records
no visit, no report and no error, whatever the entry is (so for a hidden
directory no descendant is reached either). -/
theorem rec_find_skips_hidden (m : Matcher) (fname : List Char) (e : FSEntry)
    (key : List Char) (max_depth : Int) (h : isHidden fname = true) :
    rec_find m fname e key max_depth true = ⟨[], [], false⟩ := by
  unfold rec_find
  cases max_depth.toNat with
  | zero => rfl
  | succ d =>
    rw [recFindN_succ_eq]
    rw [h]
    rfl

/-- Witness for `rec_find_skips_hidden`: a hidden directory with a matching
child is pruned entirely. -/
theorem rec_find_skips_hidden_witness :
    rec_find filenames_matcher (".cfg".toList)
        (.dir (".cfg".toList) (some [.file ("k".toList) none])) ("k".toList) 9 true
      = ⟨[], [], false⟩ :=
  rec_find_skips_hidden filenames_matcher (".cfg".toList)
    (.dir (".cfg".toList) (some [.file ("k".toList) none])) ("k".toList) 9 (by decide)

/-- C6: over every traversal, the reporter calls are exactly the visits on
which the matcher returned `found = true` without raising, each contributing
the pair (path handed to the matcher, buffer the matcher returned), at most
once per visit and in visit order. -/
theorem rec_find_reports_iff_found (m : Matcher) (fname : List Char) (e : FSEntry)
    (key : List Char) (max_depth : Int) (nd : Bool) :
    (rec_find m fname e key max_depth nd).reports
      = (rec_find m fname e key max_depth nd).visited.filterMap (reportOfVisit m key) :=
  recFindN_reports m key nd max_depth.toNat fname e

/-- C1 counterexample: `search_in_filename` applied to the path `k/a` with
key `k` reports `found = true` and emphasizes the occurrence inside the
directory segment, although the base name `a` does not contain the key. -/
theorem search_in_filename_matches_directory_segment :
    (search_in_filename ("k/a".toList) ("k".toList)).2 = true ∧
    strContains (baseName ("k/a".toList)) ("k".toList) = false ∧
    (search_in_filename ("k/a".toList) ("k".toList)).1
      = GREEN ++ ("k".toList) ++ RESET ++ ("/a".toList) := by
  refine ⟨rfl, rfl, rfl⟩

/-- C1 amended: `search_in_filename` decides its match and builds its
highlighted buffer from the full path it is handed, not from the base name:
`found` is exactly the substring test on the whole path, and the buffer
wraps the first occurrence of the key anywhere in the path, directory
segments included. -/
theorem search_in_filename_uses_full_path (fname key : List Char) :
    (search_in_filename fname key).2 = strContains fname key ∧
    ∀ i, strIndexOpt fname key = some i →
      (search_in_filename fname key).1
        = fname.take i ++ GREEN ++ key ++ RESET ++ fname.drop (i + key.length) := by
  constructor
  · unfold search_in_filename strContains
    cases h : strIndexOpt fname key with
    | none => rfl
    | some j => rfl
  · intro i h
    have e1 : search_in_filename fname key
        = (fname.take i ++ GREEN ++ (fname.drop i).take key.length ++ RESET
            ++ fname.drop (i + key.length), true) := by
      unfold search_in_filename
      rw [h]
    rw [e1, strIndexOpt_occurrence fname key i h]

/-- Witness for `search_in_filename_uses_full_path` at `fname = ka`,
`key = a`, first occurrence at index 1. -/
theorem search_in_filename_uses_full_path_witness :
    (search_in_filename ("ka".toList) ("a".toList)).1
      = ("ka".toList).take 1 ++ GREEN ++ ("a".toList) ++ RESET
        ++ ("ka".toList).drop (1 + ("a".toList).length) :=
  (search_in_filename_uses_full_path ("ka".toList) ("a".toList)).2 1 (by decide)

/-- C9: when the key occurs in `fname` (at first index `i`), the buffer of
`search_in_filename` is the path with `GREEN` and `RESET` inserted around
that occurrence, and deleting those two markers gives back exactly `fname`. -/
theorem search_in_filename_marker_deletion (fname key : List Char) (i : Nat)
    (h : strIndexOpt fname key = some i) :
    search_in_filename fname key
      = (fname.take i ++ GREEN ++ key ++ RESET ++ fname.drop (i + key.length), true) ∧
    fname.take i ++ key ++ fname.drop (i + key.length) = fname := by
  constructor
  · have e1 : search_in_filename fname key
        = (fname.take i ++ GREEN ++ (fname.drop i).take key.length ++ RESET
            ++ fname.drop (i + key.length), true) := by
      unfold search_in_filename
      rw [h]
    rw [e1, strIndexOpt_occurrence fname key i h]
  · exact strIndexOpt_split fname key i h

/-- Witness for `search_in_filename_marker_deletion` at `fname = abc`,
`key = b`. -/
theorem search_in_filename_marker_deletion_witness :
    (search_in_filename ("abc".toList) ("b".toList)
      = (("abc".toList).take 1 ++ GREEN ++ ("b".toList) ++ RESET
          ++ ("abc".toList).drop (1 + ("b".toList).length), true)) ∧
    ("abc".toList).take 1 ++ ("b".toList) ++ ("abc".toList).drop (1 + ("b".toList).length)
      = "abc".toList :=
  search_in_filename_marker_deletion ("abc".toList) ("b".toList) 1 (by decide)

/-- C7: whenever a matching line yields a fragment, that fragment is at most
`HIGHLIGHT_MAX_LEN = 40` characters long, and when the key's occurrence in
the stripped, highlighted line sits at an index beyond 20 the fragment is
the highlighted line left-truncated to start exactly 20 characters before
that occurrence (then capped at 40). -/
theorem fragment_length_and_window (line key frag : List Char)
    (h : fragmentOf line key = .ok frag) :
    frag.length ≤ HIGHLIGHT_MAX_LEN ∧
    ∀ i, strIndexOpt (higlightOf line key) key = some i → 20 < i →
      frag = ((higlightOf line key).drop (i - 20)).take HIGHLIGHT_MAX_LEN := by
  unfold fragmentOf truncatedHiglight at h
  cases hidx : strIndexOpt (higlightOf line key) key with
  | none => rw [hidx] at h; cases h
  | some i0 =>
    rw [hidx] at h
    simp only [Except.map, Except.ok.injEq] at h
    subst h
    constructor
    · simp only [List.length_take]
      exact Nat.min_le_left _ _
    · intro i hi h20
      injection hi with hh
      subst hh
      rw [if_pos h20]

/-- Witness for `fragment_length_and_window` on a line whose only match sits
at index 31 of the highlighted line: the fragment starts at index 11. -/
theorem fragment_length_and_window_witness :
    ((((higlightOf ("aaaaaaaaaaaaaaaaaaaaaaaaaaZ\n".toList) ("Z".toList)).drop 11).take
        HIGHLIGHT_MAX_LEN).length ≤ HIGHLIGHT_MAX_LEN) ∧
    (((higlightOf ("aaaaaaaaaaaaaaaaaaaaaaaaaaZ\n".toList) ("Z".toList)).drop 11).take
        HIGHLIGHT_MAX_LEN
      = ((higlightOf ("aaaaaaaaaaaaaaaaaaaaaaaaaaZ\n".toList) ("Z".toList)).drop
          (31 - 20)).take HIGHLIGHT_MAX_LEN) :=
  ⟨(fragment_length_and_window ("aaaaaaaaaaaaaaaaaaaaaaaaaaZ\n".toList) ("Z".toList)
      ((((higlightOf ("aaaaaaaaaaaaaaaaaaaaaaaaaaZ\n".toList) ("Z".toList)).drop 11).take
        HIGHLIGHT_MAX_LEN)) (by rfl)).1,
   (fragment_length_and_window ("aaaaaaaaaaaaaaaaaaaaaaaaaaZ\n".toList) ("Z".toList)
      ((((higlightOf ("aaaaaaaaaaaaaaaaaaaaaaaaaaZ\n".toList) ("Z".toList)).drop 11).take
        HIGHLIGHT_MAX_LEN)) (by rfl)).2 31 (by decide) (by decide)⟩

/-- C3 counterexample: on the line `abab` with key `ab`, the fragment wraps
both occurrences in emphasis markers (Python's `str.replace` replaces every
occurrence), so the second occurrence is not left unemphasized. -/
theorem search_in_file_emphasizes_all_occurrences :
    fragmentOf ("abab\n".toList) ("ab".toList)
      = .ok (keyText ("ab".toList) ++ keyText ("ab".toList)) ∧
    search_in_file [("abab\n").toList] ("ab".toList)
      = .ok (locationTag 0 ("abab\n".toList) ("ab".toList)
          ++ (keyText ("ab".toList) ++ keyText ("ab".toList)) ++ ['\n'], true) := by
  refine ⟨rfl, rfl⟩

/-- C3 amended: the highlighted line wraps every occurrence of the key that
Python's left-to-right, non-overlapping `replace` finds: if the stripped
line does not contain the key it is left unchanged, and if its first
occurrence is at index `i` the text up to `i` is kept, that occurrence is
wrapped in `GREEN`/`RESET`, and the remainder after the occurrence is
processed the same way again. -/
theorem higlight_emphasizes_every_occurrence (line key : List Char) (hk : key ≠ []) :
    (strContains (pyStrip line) key = false → higlightOf line key = pyStrip line) ∧
    ∀ i, strIndexOpt (pyStrip line) key = some i →
      higlightOf line key
        = (pyStrip line).take i ++ GREEN ++ key ++ RESET
          ++ pyReplace ((pyStrip line).drop (i + key.length)) key (keyText key) := by
  cases key with
  | nil => exact absurd rfl hk
  | cons p ps =>
    constructor
    · intro hc
      unfold higlightOf
      exact pyReplace_of_not_contains (pyStrip line) p ps (keyText (p :: ps)) hc
    · intro i hi
      unfold higlightOf
      rw [pyReplace_of_index (pyStrip line) i p ps (keyText (p :: ps)) hi]
      unfold keyText
      simp [List.append_assoc]

/-- Witness for `higlight_emphasizes_every_occurrence` on the line `kk` with
key `k` (first occurrence at index 0; the tail `k` is replaced again). -/
theorem higlight_emphasizes_every_occurrence_witness :
    higlightOf ("kk\n".toList) ("k".toList)
      = (pyStrip ("kk\n".toList)).take 0 ++ GREEN ++ ("k".toList) ++ RESET
        ++ pyReplace ((pyStrip ("kk\n".toList)).drop (0 + ("k".toList).length))
            ("k".toList) (keyText ("k".toList)) :=
  (higlight_emphasizes_every_occurrence ("kk\n".toList) ("k".toList) (by decide)).2 0
    (by decide)

/-- C10: the decodable content [`ba b`, `xa `] with key `a ` makes
`search_in_file` raise: the second line contains the key, but `strip`
removes the trailing space the occurrence needs, `replace` changes nothing
and `higlight.index(key)` raises; the first line alone would have produced a
match, and the traversal swallows the error and reports the whole file as a
non-match. -/
theorem search_in_file_raises_on_stripped_key :
    search_in_file [("ba b\n").toList, ("xa \n").toList] ("a ".toList) = .error () ∧
    strContains (("xa \n").toList) ("a ".toList) = true ∧
    search_in_file [("ba b\n").toList] ("a ".toList)
      = .ok (locationTag 0 ("ba b\n".toList) ("a ".toList)
          ++ ("b".toList ++ keyText ("a ".toList) ++ "b".toList) ++ ['\n'], true) ∧
    rec_find contents_matcher ("f".toList)
        (.file ("f".toList) (some [("ba b\n").toList, ("xa \n").toList]))
        ("a ".toList) 5 false
      = ⟨[(("f".toList), some [("ba b\n").toList, ("xa \n").toList])], [], false⟩ := by
  refine ⟨rfl, rfl, rfl, rfl⟩

/-- C2 counterexample: a directory whose `listdir` raises has a later
sibling file that contains the key; the error escapes `rec_find`, so the
sibling is never visited and never reported in that run, although
`search_in_file` would have matched it. -/
theorem rec_find_dir_error_aborts_siblings :
    rec_find contents_matcher ("r".toList)
        (.dir ("r".toList)
          (some [.dir ("b".toList) none,
                 .file ("f".toList) (some [("k\n").toList])]))
        ("k".toList) 10 false
      = ⟨[], [], true⟩ ∧
    search_in_file [("k\n").toList] ("k".toList)
      = .ok (locationTag 0 ("k\n".toList) ("k".toList) ++ keyText ("k".toList) ++ ['\n'],
             true) := by
  refine ⟨rfl, rfl⟩

/-- C2 amended: an error raised while matching a single file (unreadable
file, decode failure, matcher exception) is contained at that entry —
`rec_find` on a file never reports an escaped error, and inside a directory
loop every sibling after a file entry is still processed whenever the
entries before it did not raise; an error enumerating a directory, however,
escapes `rec_find`, and only the driver loop contains it, so the driver
always finishes all top-level entries without an escaped error. -/
theorem rec_find_contains_file_errors :
    (∀ (m : Matcher) (fname nm : List Char) (content : Option (List (List Char)))
        (key : List Char) (max_depth : Int) (nd : Bool),
      (rec_find m fname (.file nm content) key max_depth nd).errored = false) ∧
    (∀ (m : Matcher) (key : List Char) (nd : Bool) (d : Nat) (base : List Char)
        (pre post : List FSEntry) (nm : List Char) (content : Option (List (List Char))),
      (travList (childStep m key nd d base) pre).errored = false →
      travList (childStep m key nd d base) (pre ++ FSEntry.file nm content :: post)
        = ⟨(travList (childStep m key nd d base) pre).visited
              ++ (childStep m key nd d base (.file nm content)).visited
              ++ (travList (childStep m key nd d base) post).visited,
            (travList (childStep m key nd d base) pre).reports
              ++ (childStep m key nd d base (.file nm content)).reports
              ++ (travList (childStep m key nd d base) post).reports,
            (travList (childStep m key nd d base) post).errored⟩) ∧
    (∀ (m : Matcher) (entries : List FSEntry) (key : List Char) (max_depth : Int)
        (nd : Bool),
      (main_loop m entries key max_depth nd).errored = false) := by
  refine ⟨?_, ?_, ?_⟩
  · intro m fname nm content key max_depth nd
    exact recFindN_file_errored m key nd max_depth.toNat fname nm content
  · intro m key nd d base pre
    induction pre with
    | nil =>
      intro post nm content _
      have hfile : (childStep m key nd d base (.file nm content)).errored = false :=
        recFindN_file_errored m key nd d (pathJoin base nm) nm content
      rw [List.nil_append, travList_cons, if_neg (by rw [hfile]; exact Bool.false_ne_true)]
      simp [travList]
    | cons p pre' ih =>
      intro post nm content h
      rw [travList_cons] at h
      by_cases hp : (childStep m key nd d base p).errored = true
      · rw [if_pos hp] at h
        rw [hp] at h
        cases h
      · rw [if_neg hp] at h
        simp only at h
        rw [List.cons_append, travList_cons, if_neg hp, ih post nm content h,
          travList_cons, if_neg hp]
        simp [List.append_assoc]
  · intro m entries key max_depth nd
    cases entries with
    | nil => rfl
    | cons e rest => rfl

/-- Witness for `rec_find_contains_file_errors`: in a directory loop an
unreadable file (`u`, raising on read) is followed by two readable files;
both later siblings are still visited and the matching ones reported. -/
theorem rec_find_contains_file_errors_witness :
    travList (childStep contents_matcher ("k".toList) false 3 ("r".toList))
        ([FSEntry.file ("u".toList) none]
          ++ FSEntry.file ("g".toList) (some [("k\n").toList])
            :: [FSEntry.file ("h".toList) (some [("k\n").toList])])
      = ⟨(travList (childStep contents_matcher ("k".toList) false 3 ("r".toList))
              [FSEntry.file ("u".toList) none]).visited
            ++ (childStep contents_matcher ("k".toList) false 3 ("r".toList)
                  (.file ("g".toList) (some [("k\n").toList]))).visited
            ++ (travList (childStep contents_matcher ("k".toList) false 3 ("r".toList))
                  [FSEntry.file ("h".toList) (some [("k\n").toList])]).visited,
          (travList (childStep contents_matcher ("k".toList) false 3 ("r".toList))
              [FSEntry.file ("u".toList) none]).reports
            ++ (childStep contents_matcher ("k".toList) false 3 ("r".toList)
                  (.file ("g".toList) (some [("k\n").toList]))).reports
            ++ (travList (childStep contents_matcher ("k".toList) false 3 ("r".toList))
                  [FSEntry.file ("h".toList) (some [("k\n").toList])]).reports,
          (travList (childStep contents_matcher ("k".toList) false 3 ("r".toList))
              [FSEntry.file ("h".toList) (some [("k\n").toList])]).errored⟩ :=
  rec_find_contains_file_errors.2.1 contents_matcher ("k".toList) false 3 ("r".toList)
    [FSEntry.file ("u".toList) none] [FSEntry.file ("h".toList) (some [("k\n").toList])]
    ("g".toList) (some [("k\n").toList]) (by rfl)

/-- Entries produced by `processLine` are never empty (they end with a
newline). -/
theorem forall₂_entries_ne_nil (key : List Char) (L : List (Nat × List Char))
    (es : List (List Char))
    (hf : List.Forall₂
      (fun (p : Nat × List Char) (e : List Char) =>
        processLine p.1 p.2 key = .ok e ∧
        (locationTag p.1 p.2 key).isPrefixOf e = true ∧
        e.getLast? = some '\n') L es) :
    ∀ e ∈ es, e ≠ [] := by
  induction hf with
  | nil => intro e he; cases he
  | cons hr _ ih =>
    intro e he
    cases he with
    | head =>
      obtain ⟨-, -, hlast⟩ := hr
      intro hee
      rw [hee] at hlast
      simp at hlast
    | tail _ ht => exact ih e ht

/-- C8: when `search_in_file` returns, its buffer is the concatenation of
the per-line entries `es`: each line containing the key contributes exactly
one entry, in ascending line order (the filtered enumeration), each entry
is the `processLine` output for its 1-indexed line number, begins with the
location tag `Line <n>, Column <c>:` built from the line's first-occurrence
column, ends with a newline, and `found` is true exactly when the buffer is
non-empty. -/
theorem search_in_file_buffer_spec (lines : List (List Char)) (key : List Char)
    (es : List (List Char)) (h : searchInFileAux key 0 lines = .ok es) :
    search_in_file lines key = .ok (es.flatten, decide (0 < es.length)) ∧
    (decide (0 < es.length) = true ↔ es.flatten ≠ []) ∧
    List.Forall₂
      (fun (p : Nat × List Char) (e : List Char) =>
        processLine p.1 p.2 key = .ok e ∧
        (locationTag p.1 p.2 key).isPrefixOf e = true ∧
        e.getLast? = some '\n')
      (lines.enum.filter fun p => strContains p.2 key) es := by
  have hf := searchInFileAux_entries key lines 0 es h
  refine ⟨?_, ?_, hf⟩
  · unfold search_in_file
    rw [h]
  · constructor
    · intro hlen
      cases es with
      | nil => simp at hlen
      | cons e es' =>
        have hne : e ≠ [] :=
          forall₂_entries_ne_nil key _ _ hf e (List.mem_cons_self e es')
        simp only [List.flatten_cons]
        intro habs
        rw [List.append_eq_nil] at habs
        exact hne habs.1
    · intro hne
      cases es with
      | nil => simp at hne
      | cons e es' => simp

/-- Witness for `search_in_file_buffer_spec` on a one-line file containing
the key. -/
theorem search_in_file_buffer_spec_witness :
    search_in_file [("k\n").toList] ("k".toList)
      = .ok (("\x1b[94mLine 1, Column 1:\x1b[0m \x1b[92mk\x1b[0m\n").toList, true) :=
  (search_in_file_buffer_spec [("k\n").toList] ("k".toList)
    [("\x1b[94mLine 1, Column 1:\x1b[0m \x1b[92mk\x1b[0m\n").toList] (by rfl)).1
